import Mathlib

/-!
# Shallow embedding of the `writ` index-entry codec and workspace paths

This file embeds, in Lean, the Rust sources `src/entry.rs` (the staging-index
record codec: `Entry`, `Flags`, `PathLen`) and `src/ws/path.rs` (`WsPath` and
its `Parents` ancestor iterator).  Byte strings are modelled as `List Nat`
(each element a byte value), machine integers as `Nat`/`Int`, fallible or
panicking code as `Option`.  Rust standard-library path semantics
(`Path::components`, `Path::file_name`, `Path::parent`, `PathBuf::push`,
`Path::starts_with`, and the derived component-wise `Ord` on `Path`) are
embedded explicitly where the source relies on them.
-/

namespace Writ

/-- Rust `Mode` of `src/stat.rs` (not included in the sources).
Modelled from the spec: "a semantic wrapper over a raw 32-bit value …
must serialize to the exact raw value it was parsed from (round-trip,
not reinterpreted)".  `fromU32`/`asU32` are therefore the identity on
the raw value. -/
structure Mode where
  raw : Nat
deriving DecidableEq, Repr

def Mode.fromU32 (v : Nat) : Mode := ⟨v⟩

def Mode.asU32 (m : Mode) : Nat := m.raw

/-- Rust `Oid` of `src/object.rs` (not included in the sources).
Modelled from the spec: "fixed-width opaque identifier of file content …
the hash width used in the reference format is 20 bytes, giving
40+20+2=62".  So `Oid::SIZE = 20` and `as_bytes` returns the raw bytes. -/
structure Oid where
  bytes : List Nat
deriving DecidableEq, Repr

/-- Modelled from the spec: the reference hash width is 20 bytes. -/
def Oid.SIZE : Nat := 20

/-- Rust `Stat` of `src/stat.rs` (not included in the sources).
Modelled from the spec: "creation time, modification time (each as an
absolute timestamp), device id, inode, mode, owning user id, owning group
id, byte size.  Immutable once captured."  Times are carried as signed
nanoseconds since the Unix epoch (the information content of a
`SystemTime`). -/
structure Stat where
  ctime : Int
  mtime : Int
  dev : Nat
  ino : Nat
  mode : Mode
  uid : Nat
  gid : Nat
  size : Nat
deriving DecidableEq, Repr

/-- Rust `PathLen` of `src/entry.rs`: either an exact path byte length or the
saturated "4095 or greater" sentinel. -/
inductive PathLen where
  | exactly (len : Nat)
  | maxOrGreater
deriving DecidableEq, Repr

/-- The constant `PathLen::MAX = 0xfff`. -/
def PathLen.MAX : Nat := 0xfff

/-- Rust `PathLen::from(path)` of `src/entry.rs`: exact length when
`path.len() <= MAX`, else the sentinel. -/
def PathLen.fromPathBytes (path : List Nat) : PathLen :=
  if path.length ≤ PathLen.MAX then .exactly path.length else .maxOrGreater

/-- Rust `Flags` of `src/entry.rs`: packed path metadata, currently only the
saturating path length. -/
structure Flags where
  path_len : PathLen
deriving DecidableEq, Repr

/-- Rust `Flags::from_path` of `src/entry.rs`. -/
def Flags.fromPathBytes (path : List Nat) : Flags :=
  ⟨PathLen.fromPathBytes path⟩

/-- Rust `Flags::from_u16` of `src/entry.rs`: `Exactly(val)` when
`val <= PathLen::MAX`, else `MaxOrGreater`. -/
def Flags.fromU16 (val : Nat) : Flags :=
  if val ≤ PathLen.MAX then ⟨.exactly val⟩ else ⟨.maxOrGreater⟩

/-- Rust `Flags::as_u16` of `src/entry.rs`.  The `Exactly` arm performs
`len.try_into().expect("len < MAX")`, a panic when `len` does not fit in a
`u16`; the panic is modelled as `none`. -/
def Flags.asU16 (f : Flags) : Option Nat :=
  match f.path_len with
  | .exactly len => if len < 65536 then some len else none
  | .maxOrGreater => some PathLen.MAX

/-- Rust `Entry` of `src/entry.rs`.  `ctime`/`mtime` are signed nanoseconds since
the Unix epoch; `path` and `filename` are raw byte strings. -/
structure Entry where
  oid : Oid
  ctime : Int
  mtime : Int
  dev : Nat
  ino : Nat
  mode : Mode
  uid : Nat
  gid : Nat
  size : Nat
  flags : Flags
  path : List Nat
  filename : List Nat
deriving DecidableEq, Repr

/-- The constant `Entry::BLOCK_SIZE = 8`. -/
def Entry.BLOCK_SIZE : Nat := 8

/-- The constant `Entry::PATH_OFFSET = 62`. -/
def Entry.PATH_OFFSET : Nat := 62

/-- Rust `Entry::padding_size` of `src/entry.rs`:
`(BLOCK_SIZE - (len % BLOCK_SIZE)) % BLOCK_SIZE` for
`len = PATH_OFFSET + path.len()`. -/
def Entry.paddingSize (path : List Nat) : Nat :=
  (Entry.BLOCK_SIZE - (Entry.PATH_OFFSET + path.length) % Entry.BLOCK_SIZE) %
    Entry.BLOCK_SIZE

/-- Rust `Entry::systemtime_to_epoch` of `src/entry.rs`.
`duration_since(UNIX_EPOCH)` panics ("Not before epoch") when the time
precedes the epoch, and `as_secs().try_into()` panics ("Time overflowed")
when the seconds exceed `u32::MAX`; both panics are modelled as `none`.
On success the pair is (whole seconds, sub-second nanoseconds). -/
def Entry.systemtimeToEpoch (time : Int) : Option (Nat × Nat) :=
  if time < 0 then none
  else
    let secs := time.toNat / 1000000000
    if secs ≤ 4294967295 then some (secs, time.toNat % 1000000000) else none

/-- Rust `Entry::systemtime_from_epoch` of `src/entry.rs`:
`UNIX_EPOCH + Duration::new(secs, nanos)`. -/
def Entry.systemtimeFromEpoch (secs nanos : Nat) : Int :=
  (secs : Int) * 1000000000 + (nanos : Int)

/-- Big-endian encoding of a `u32` (`write_u32::<NetworkEndian>`). -/
def u32be (n : Nat) : List Nat :=
  [n / 2 ^ 24 % 256, n / 2 ^ 16 % 256, n / 2 ^ 8 % 256, n % 256]

/-- Big-endian encoding of a `u16` (`write_u16::<NetworkEndian>`). -/
def u16be (n : Nat) : List Nat :=
  [n / 2 ^ 8 % 256, n % 256]

/-- Rust `std::path::Component`, restricted to the variants that arise on
Unix byte paths (no `Prefix` component outside Windows).  The declaration
order matches `std`, whose derived `Ord` ranks
`RootDir < CurDir < ParentDir < Normal`. -/
inductive Component where
  | rootDir
  | curDir
  | parentDir
  | normal (bytes : List Nat)
deriving DecidableEq, Repr

def Component.isParentDir : Component → Bool
  | .parentDir => true
  | _ => false

/-- Split a byte string at every `/` (byte 47), keeping empty pieces. -/
def splitSlash : List Nat → List (List Nat)
  | [] => [[]]
  | b :: rest =>
    if b = 47 then [] :: splitSlash rest
    else
      match splitSlash rest with
      | [] => [[b]]
      | h :: t => (b :: h) :: t

/-- The non-empty `/`-separated pieces of a byte path. -/
def pathPieces (p : List Nat) : List (List Nat) :=
  (splitSlash p).filter (fun x => ¬x = [])

/-- Classify one non-empty piece as a `std::path` component: `.` is
`CurDir`, `..` is `ParentDir`, anything else is `Normal`. -/
def classifyPiece (piece : List Nat) : Component :=
  if piece = [46] then .curDir
  else if piece = [46, 46] then .parentDir
  else .normal piece

/-- Rust `Path::components()` on a Unix byte path: a leading `/` yields
`RootDir`; a leading `.` piece of a relative path is kept as `CurDir`;
every other `.` piece and every empty piece (repeated or trailing `/`) is
normalized away; `..` pieces become `ParentDir`. -/
def parseComponents (p : List Nat) : List Component :=
  if p.head? = some 47 then
    .rootDir :: ((pathPieces p).filter (fun x => ¬x = [46])).map classifyPiece
  else
    match pathPieces p with
    | [] => []
    | first :: rest =>
      if first = [46] then
        .curDir :: (rest.filter (fun x => ¬x = [46])).map classifyPiece
      else
        ((pathPieces p).filter (fun x => ¬x = [46])).map classifyPiece

/-- Rust `Path::file_name()`: the final component when it is a `Normal`
component, `none` otherwise (empty path, root, or a path ending in `..`,
with trailing `.`/`/` normalized away by `components`). -/
def fileName (p : List Nat) : Option (List Nat) :=
  match (parseComponents p).getLast? with
  | some (.normal bytes) => some bytes
  | _ => none

/-- Rust `Entry::get_filename` of `src/entry.rs`:
`path.file_name().expect(…)` — the panic on a path without a final normal
component is modelled as `none`. -/
def Entry.getFilename (path : List Nat) : Option (List Nat) :=
  fileName path

/-- Rust `Entry::from` of `src/entry.rs`.  Panics (modelled as `none`) when the
path contains a `..` component; otherwise panics inside `get_filename`
when the path has no final normal component; otherwise copies the stat
fields, computes the flags from the path, and stores path and filename. -/
def Entry.fromPath (path : List Nat) (oid : Oid) (stat : Stat) : Option Entry :=
  if (parseComponents path).any Component.isParentDir then none
  else
    match Entry.getFilename path with
    | none => none
    | some filename =>
      some { ctime := stat.ctime, mtime := stat.mtime, dev := stat.dev,
             ino := stat.ino, mode := stat.mode, uid := stat.uid,
             gid := stat.gid, size := stat.size, oid := oid,
             flags := Flags.fromPathBytes path, path := path,
             filename := filename }

/-- Rust `Entry::write_to_index` of `src/entry.rs`, with the writer modelled as an
always-succeeding in-memory buffer (so the only failures left are the
panics inside `systemtime_to_epoch` and `Flags::as_u16`, modelled as
`none`).  The output is the exact byte sequence written: ten big-endian
`u32` fields, the oid bytes, the big-endian `u16` flags, the raw path
bytes, then `padding_size(path)` NUL bytes. -/
def Entry.writeToIndex (e : Entry) : Option (List Nat) :=
  match Entry.systemtimeToEpoch e.ctime with
  | none => none
  | some (ctimeI, ctimeN) =>
    match Entry.systemtimeToEpoch e.mtime with
    | none => none
    | some (mtimeI, mtimeN) =>
      match e.flags.asU16 with
      | none => none
      | some flagsVal =>
        some (u32be ctimeI ++ u32be ctimeN ++ u32be mtimeI ++ u32be mtimeN ++
          u32be e.dev ++ u32be e.ino ++ u32be e.mode.asU32 ++ u32be e.uid ++
          u32be e.gid ++ u32be e.size ++ e.oid.bytes ++ u16be flagsVal ++
          e.path ++ List.replicate (Entry.paddingSize e.path) 0)

/-- Reader `read_u32::<NetworkEndian>`: consume four bytes, big-endian; a short
read is an I/O error (`none`). -/
def readU32 : List Nat → Option (Nat × List Nat)
  | b0 :: b1 :: b2 :: b3 :: rest =>
    some (b0 * 2 ^ 24 + b1 * 2 ^ 16 + b2 * 2 ^ 8 + b3, rest)
  | _ => none

/-- Reader `read_u16::<NetworkEndian>`: consume two bytes, big-endian. -/
def readU16 : List Nat → Option (Nat × List Nat)
  | b0 :: b1 :: rest => some (b0 * 2 ^ 8 + b1, rest)
  | _ => none

/-- Reader `read_exact` into an `n`-byte buffer: consume exactly `n` bytes, a
short read is an I/O error. -/
def readExact (n : Nat) (input : List Nat) : Option (List Nat × List Nat) :=
  if n ≤ input.length then some (input.take n, input.drop n) else none

/-- The NUL scan of `parse_from_index`: `read_u8` in a loop until a `0`
byte, accumulating the path; reading past the end of input is an I/O
error. -/
def scanPath : List Nat → Option (List Nat × List Nat)
  | [] => none
  | b :: rest =>
    if b = 0 then some ([], rest)
    else
      match scanPath rest with
      | some (path, remaining) => some (b :: path, remaining)
      | none => none

/-- Reader `read_u8` repeated `n` times, discarding the bytes. -/
def skipBytes (n : Nat) (input : List Nat) : Option (List Nat) :=
  if n ≤ input.length then some (input.drop n) else none

/-- Rust `Entry::parse_from_index` of `src/entry.rs`: reads the 62-byte fixed
header (ten big-endian `u32` fields, `Oid::SIZE` oid bytes, a big-endian
`u16` flags value), scans the path up to the first NUL byte, then skips
`padding_size(path) - 1` further bytes ("we already read one null byte").
That subtraction is performed on a `usize`: when `padding_size(path) = 0`
it underflows, which panics under overflow checks and otherwise wraps to
`2^64 - 1`, a skip count no finite stream satisfies — both modelled as
`none`.  Returns the entry and the unconsumed remainder of the stream. -/
def Entry.parseFromIndex (input : List Nat) : Option (Entry × List Nat) :=
  match readU32 input with
  | none => none
  | some (ctimeI, r1) =>
  match readU32 r1 with
  | none => none
  | some (ctimeN, r2) =>
  match readU32 r2 with
  | none => none
  | some (mtimeI, r3) =>
  match readU32 r3 with
  | none => none
  | some (mtimeN, r4) =>
  match readU32 r4 with
  | none => none
  | some (dev, r5) =>
  match readU32 r5 with
  | none => none
  | some (ino, r6) =>
  match readU32 r6 with
  | none => none
  | some (modeRaw, r7) =>
  match readU32 r7 with
  | none => none
  | some (uid, r8) =>
  match readU32 r8 with
  | none => none
  | some (gid, r9) =>
  match readU32 r9 with
  | none => none
  | some (size, r10) =>
  match readExact Oid.SIZE r10 with
  | none => none
  | some (oidBytes, r11) =>
  match readU16 r11 with
  | none => none
  | some (flagsVal, r12) =>
  match scanPath r12 with
  | none => none
  | some (path, r13) =>
  if Entry.paddingSize path = 0 then none
  else
    match skipBytes (Entry.paddingSize path - 1) r13 with
    | none => none
    | some r14 =>
      match Entry.getFilename path with
      | none => none
      | some filename =>
        some ({ oid := ⟨oidBytes⟩,
                ctime := Entry.systemtimeFromEpoch ctimeI ctimeN,
                mtime := Entry.systemtimeFromEpoch mtimeI mtimeN,
                dev := dev, ino := ino, mode := Mode.fromU32 modeRaw,
                uid := uid, gid := gid, size := size,
                flags := Flags.fromU16 flagsVal, path := path,
                filename := filename }, r14)

/-- Lexicographic comparison of byte strings (Rust `Ord` on `[u8]` /
`OsStr`). -/
def bytesCmp : List Nat → List Nat → Ordering
  | [], [] => .eq
  | [], _ :: _ => .lt
  | _ :: _, [] => .gt
  | a :: as, b :: bs =>
    if a < b then .lt else if b < a then .gt else bytesCmp as bs

/-- The rank of a component in the derived `Ord` of std on
`std::path::Component` (declaration order). -/
def Component.rank : Component → Nat
  | .rootDir => 1
  | .curDir => 2
  | .parentDir => 3
  | .normal _ => 4

/-- Comparison (`Ord`) on `std::path::Component`: by variant rank, `Normal` components
by their bytes. -/
def Component.cmp : Component → Component → Ordering
  | .normal a, .normal b => bytesCmp a b
  | c, d => compare c.rank d.rank

/-- Lexicographic comparison of lists under an element comparison
(Rust `Iterator::cmp`). -/
def listCmp (f : α → α → Ordering) : List α → List α → Ordering
  | [], [] => .eq
  | [], _ :: _ => .lt
  | _ :: _, [] => .gt
  | a :: as, b :: bs =>
    match f a b with
    | .eq => listCmp f as bs
    | o => o

/-- The derived `Ord` on `WsPath(PathBuf)` of `src/ws/path.rs`: `std`
compares `Path` values by `components().cmp(other.components())`. -/
def wsPathCmp (p q : List Nat) : Ordering :=
  listCmp Component.cmp (parseComponents p) (parseComponents q)

/-- Relation `p < q` under the `WsPath` order. -/
def wsPathLt (p q : List Nat) : Prop := wsPathCmp p q = .lt

instance (p q : List Nat) : Decidable (wsPathLt p q) := by
  unfold wsPathLt; infer_instance

/-- Relation `p < q` under raw lexicographic byte comparison (the order the spec
describes). -/
def bytesLt (p q : List Nat) : Prop := bytesCmp p q = .lt

instance (p q : List Nat) : Decidable (bytesLt p q) := by
  unfold bytesLt; infer_instance

/-- Whether a byte path is absolute (`Path::is_absolute` on Unix: it has a
root, i.e. starts with `/`). -/
def isAbsolutePath (p : List Nat) : Bool := p.head? = some 47

/-- Rust `PathBuf::push` / `Path::join` on Unix byte paths: an absolute
path replaces the whole buffer; otherwise a `/` separator is inserted
unless the buffer is empty or already ends with `/`. -/
def joinBytes (base p : List Nat) : List Nat :=
  if isAbsolutePath p then p
  else if base = [] then p
  else if base.getLast? = some 47 then base ++ p
  else base ++ 47 :: p

/-- Rust `WsPath::to_absolute` of `src/ws/path.rs`:
`workspace.path().join(&self.0)` followed by the defensive
`path.starts_with(workspace.path())` check, whose failing branch panics
(modelled as `none`).  `Path::starts_with` compares whole components. -/
def WsPath.toAbsolute (workspace p : List Nat) : Option (List Nat) :=
  let path := joinBytes workspace p
  if (parseComponents workspace).isPrefixOf (parseComponents path) then
    some path
  else none

/-- Rust `Path::parent()`: strip the last component; `none` when there is
no component or only a root. -/
def pathParent (p : List Nat) : Option (List Component) :=
  match parseComponents p with
  | [] => none
  | [.rootDir] => none
  | cs => some cs.dropLast

/-- The state of the `Parents` iterator of `src/ws/path.rs`:
`inner: Option<NonEmptyParents>` where `NonEmptyParents` holds the
remaining components of `path.parent()` and the accumulated `prefix`
buffer. -/
structure ParentsState where
  inner : Option (List Component × List Nat)
deriving DecidableEq, Repr

/-- Rust `Parents::new` of `src/ws/path.rs`:
`path.as_path().parent().map(|parent| NonEmptyParents { remaining:
parent.components(), prefix: PathBuf::new() })`. -/
def Parents.new (p : List Nat) : ParentsState :=
  ⟨(pathParent p).map (fun cs => (cs, []))⟩

/-- One call of `<Parents as Iterator>::next`.  The outer `none` models the
panic on a non-normal component (message: WsPath was not normalized); otherwise
the result is the yielded item (if any) and the successor state.
A `Normal` component is joined onto the prefix and also pushed onto it;
an exhausted or empty inner iterator takes `inner` to `None` and yields
nothing. -/
def Parents.next (s : ParentsState) : Option (Option (List Nat) × ParentsState) :=
  match s.inner with
  | none => some (none, ⟨none⟩)
  | some (remaining, pre) =>
    match remaining with
    | [] => some (none, ⟨none⟩)
    | c :: rest =>
      match c with
      | .normal bytes =>
        some (some (joinBytes pre bytes), ⟨some (rest, joinBytes pre bytes)⟩)
      | _ => none

/-- Drive `Parents.next` for `fuel` calls, collecting yielded items until a
call yields nothing; `none` propagates the panic. -/
def Parents.run (fuel : Nat) (s : ParentsState) :
    Option (List (List Nat) × ParentsState) :=
  match fuel with
  | 0 => some ([], s)
  | fuel + 1 =>
    match Parents.next s with
    | none => none
    | some (none, s') => some ([], s')
    | some (some item, s') =>
      match Parents.run fuel s' with
      | none => none
      | some (items, sf) => some (item :: items, sf)

/-! ## Concrete inputs used to evaluate the codec -/

/-- A valid entry for the two-byte path `ab` (`[97, 98]`), as
`Entry::from("ab", oid, stat)` would build it: epoch timestamps, a
20-byte oid, flags computed from the path, filename equal to the path. -/
def entryAB : Entry :=
  { oid := ⟨List.replicate 20 1⟩, ctime := 0, mtime := 0,
    dev := 0, ino := 0, mode := ⟨33188⟩, uid := 0, gid := 0, size := 0,
    flags := Flags.fromPathBytes [97, 98], path := [97, 98],
    filename := [97, 98] }

/-! ## Claims -/

/-- Claim C1 (code bug): the round-trip `parse_from_index ∘ write_to_index`
fails on the valid entry with path `ab` (length 2).  Because
`62 + 2 ≡ 0 (mod 8)`, `padding_size` is `0` and `write_to_index` emits no
NUL terminator after the path, so the NUL scan of the decoder runs off the end
of the record instead of reproducing the entry. -/
theorem roundtrip_fails_on_aligned_path_length :
    (Entry.writeToIndex entryAB).isSome = true ∧
      (Entry.writeToIndex entryAB).bind Entry.parseFromIndex = none := by
  constructor
  · rfl
  · rfl

/-- Claim C2 (code bug): for the valid entry with path `ab`, the encoded
record is exactly 64 bytes — `62 + 2` with zero trailing bytes — and ends
with the final path byte `98`; no `0x00` terminator follows the path, even
though the claim requires at least one NUL after every path. -/
theorem no_terminator_when_record_aligned :
    ∃ bs, Entry.writeToIndex entryAB = some bs ∧ bs.length = 64 ∧
      bs.getLast? = some 98 := by
  refine ⟨_, rfl, ?_, ?_⟩ <;> rfl

/-- Claim C3 (code bug): for a decoded path of length 2 the padding count
is `0`, not `≥ 1`, so the `padding_size(path) - 1` skip of the decoder
underflows; on the 65-byte stream consisting of a 62-byte header, the
path `ab` and its NUL terminator, `parse_from_index` fails instead of
consuming exactly one record. -/
theorem padding_skip_underflows_on_aligned_path :
    Entry.paddingSize [97, 98] = 0 ∧
      Entry.parseFromIndex (List.replicate 62 0 ++ [97, 98, 0]) = none := by
  constructor
  · rfl
  · rfl

/-- Claim C4, as stated: refuted.  `Flags::from_u16` maps the u16 value
`4095` to the exact length `Exactly(4095)`, not to the saturated sentinel
`MaxOrGreater`, although `4095 ≥ 4095`. -/
theorem flags_from_u16_boundary_cex :
    Flags.fromU16 4095 = ⟨.exactly 4095⟩ ∧
      (⟨.exactly 4095⟩ : Flags) ≠ ⟨.maxOrGreater⟩ := by
  constructor
  · rfl
  · decide

/-- Claim C4 (amended): on encode, the u16 flags value of a path of byte
length `L` equals `min L 4095` (so `L` for `L ≤ 4094` and the sentinel
value `4095` for `L ≥ 4095`); on decode, `Flags::from_u16` reconstructs
every u16 value strictly greater than `4095` as the saturated sentinel and
every value less than or equal to `4095` — including `4095` itself — as the
exact length `Exactly(val)`. -/
theorem flags_saturation_amended :
    ∀ path : List Nat, ∀ val : Nat, val < 65536 →
      (Flags.fromPathBytes path).asU16 = some (min path.length 4095) ∧
        Flags.fromU16 val =
          (if val ≤ 4095 then ⟨.exactly val⟩ else ⟨.maxOrGreater⟩) := by
  intro path val _
  constructor
  · by_cases h : path.length ≤ 4095
    · have hlt : path.length < 65536 := by omega
      simp [Flags.fromPathBytes, PathLen.fromPathBytes, PathLen.MAX, Flags.asU16, h,
        Nat.min_eq_left h, hlt]
    · simp [Flags.fromPathBytes, PathLen.fromPathBytes, PathLen.MAX, Flags.asU16, h,
        Nat.min_eq_right (Nat.le_of_not_le h)]
  · rfl

/-- Witness for the amended Claim C4 at concrete inputs: a 4096-byte path
encodes to the sentinel value `4095`, and the wire value `4096` decodes to
the sentinel. -/
theorem flags_saturation_amended_witness :
    (Flags.fromPathBytes (List.replicate 4096 97)).asU16 = some 4095 ∧
      Flags.fromU16 4096 = ⟨.maxOrGreater⟩ := by
  constructor
  · have h1 := (flags_saturation_amended (List.replicate 4096 97) 4096 (by norm_num)).1
    rw [List.length_replicate] at h1
    rw [h1]
    norm_num
  · have h2 := (flags_saturation_amended (List.replicate 4096 97) 4096 (by norm_num)).2
    rw [h2]
    norm_num

/-- A 20-byte all-zero oid. -/
def oid0 : Oid := ⟨List.replicate 20 0⟩

/-- A stat snapshot with every field zero. -/
def stat0 : Stat := ⟨0, 0, 0, 0, ⟨0⟩, 0, 0, 0⟩

/-- Conversion `systemtime_to_epoch` fails exactly on a pre-epoch time or on whole
seconds exceeding `u32::MAX`. -/
theorem systemtimeToEpoch_eq_none_iff (t : Int) :
    Entry.systemtimeToEpoch t = none ↔
      (t < 0 ∨ 4294967295 < t.toNat / 1000000000) := by
  unfold Entry.systemtimeToEpoch
  by_cases h : t < 0
  · simp [h]
  · by_cases h2 : t.toNat / 1000000000 ≤ 4294967295
    · simp [h, h2] <;> omega
    · simp [h, h2] <;> omega

/-- Claim C5, as stated: refuted.  For `p = a-b` and `q = a/c` the `WsPath`
order and raw byte-lexicographic order disagree: raw bytes compare
`0x2D < 0x2F` so `p` is byte-lexicographically smaller, but the
component-wise `Path` order compares the whole first components
`a-b > a`, so `p` is greater in `WsPath` order. -/
theorem order_not_raw_byte_lexicographic_cex :
    ¬ (wsPathLt [97, 45, 98] [97, 47, 99] ↔
        bytesLt [97, 45, 98] [97, 47, 99]) := by
  decide

/-- Claim C6: `Entry::from` yields no entry (panics) whenever the path
contains a parent-directory component, and on any path without one that
has a final normal component it succeeds with `filename` equal to that
last component. -/
theorem entry_from_path_safety (path : List Nat) (oid : Oid) (st : Stat) :
    ((parseComponents path).any Component.isParentDir = true →
      Entry.fromPath path oid st = none) ∧
    (∀ fname, (parseComponents path).any Component.isParentDir = false →
      fileName path = some fname →
      ∃ e, Entry.fromPath path oid st = some e ∧ e.filename = fname) := by
  constructor
  · intro h
    unfold Entry.fromPath
    simp [h]
  · intro fname h hf
    unfold Entry.fromPath Entry.getFilename
    simp [h, hf]

/-- Witness for Claim C6: `Entry::from` rejects the path `a/..` and accepts
`foo/bar` with filename `bar`. -/
theorem entry_from_path_safety_witness :
    Entry.fromPath [97, 47, 46, 46] oid0 stat0 = none ∧
      ∃ e, Entry.fromPath [102, 111, 111, 47, 98, 97, 114] oid0 stat0 = some e ∧
        e.filename = [98, 97, 114] := by
  constructor
  · exact (entry_from_path_safety [97, 47, 46, 46] oid0 stat0).1 (by decide)
  · exact (entry_from_path_safety [102, 111, 111, 47, 98, 97, 114] oid0 stat0).2
      [98, 97, 114] (by decide) (by decide)

/-- Claim C7: with the writer modelled as an always-succeeding buffer (so
no I/O failure) and the private `Flags` invariant (`Exactly` lengths fit in
a `u16`, as both `Flags` constructors guarantee), `write_to_index` fails
exactly when `ctime` or `mtime` precedes the epoch or its whole seconds
since the epoch exceed `2^32 - 1`; in particular it never fails on the
path contents. -/
theorem encode_fails_iff_time_out_of_range (e : Entry)
    (hflags : ∀ len, e.flags.path_len = .exactly len → len < 65536) :
    Entry.writeToIndex e = none ↔
      (e.ctime < 0 ∨ 4294967295 < e.ctime.toNat / 1000000000 ∨
        e.mtime < 0 ∨ 4294967295 < e.mtime.toNat / 1000000000) := by
  have hf : ∃ fv, e.flags.asU16 = some fv := by
    unfold Flags.asU16
    match hpl : e.flags.path_len with
    | .exactly len => simp [hflags len hpl]
    | .maxOrGreater => simp
  obtain ⟨fv, hfv⟩ := hf
  have hcIff := systemtimeToEpoch_eq_none_iff e.ctime
  have hmIff := systemtimeToEpoch_eq_none_iff e.mtime
  unfold Entry.writeToIndex
  rcases hc : Entry.systemtimeToEpoch e.ctime with _ | ⟨ci, cn⟩
  · simp only [hc]
    simp only [hc, true_iff] at hcIff
    tauto
  · rcases hm : Entry.systemtimeToEpoch e.mtime with _ | ⟨mi, mn⟩
    · simp only [hm]
      simp only [hm, true_iff] at hmIff
      tauto
    · simp only [hfv]
      simp only [hc, hm] at hcIff hmIff
      simp only [reduceCtorEq, false_iff, not_or, not_lt] at hcIff hmIff
      simp only [reduceCtorEq, false_iff]
      push_neg
      omega

/-- Witness for Claim C7: an entry whose mtime is one nanosecond before the
epoch fails to encode. -/
theorem encode_fails_iff_time_out_of_range_witness :
    Entry.writeToIndex
      { oid := oid0, ctime := 0, mtime := -1, dev := 0, ino := 0,
        mode := ⟨0⟩, uid := 0, gid := 0, size := 0,
        flags := Flags.fromPathBytes [97], path := [97],
        filename := [97] } = none := by
  refine (encode_fails_iff_time_out_of_range _ ?_).mpr (by decide)
  intro len hl
  simp [Flags.fromPathBytes, PathLen.fromPathBytes, PathLen.MAX] at hl
  omega

/-- Claim C8: every record `write_to_index` produces (for the reference
20-byte oid width) has total length `62 + L + (8 - (62 + L) % 8) % 8` for
path byte length `L`, a multiple of 8 measured from the start of the fixed
header. -/
theorem record_length_multiple_of_eight (e : Entry) (bs : List Nat)
    (hoid : e.oid.bytes.length = 20) (h : Entry.writeToIndex e = some bs) :
    bs.length % 8 = 0 ∧
      bs.length = 62 + e.path.length + (8 - (62 + e.path.length) % 8) % 8 := by
  unfold Entry.writeToIndex at h
  rcases hc : Entry.systemtimeToEpoch e.ctime with _ | ⟨ci, cn⟩ <;> rw [hc] at h
  · exact absurd h (by simp)
  rcases hm : Entry.systemtimeToEpoch e.mtime with _ | ⟨mi, mn⟩ <;> rw [hm] at h
  · exact absurd h (by simp)
  rcases hfv : e.flags.asU16 with _ | fv <;> rw [hfv] at h
  · exact absurd h (by simp)
  have hbs : bs.length = 40 + e.oid.bytes.length + 2 + e.path.length +
      Entry.paddingSize e.path := by
    have := congrArg (fun o => Option.map List.length o) h
    simp only [Option.map_some] at this
    injection this with this
    simp [u32be, u16be, List.length_append] at this
    omega
  rw [hbs, hoid]
  unfold Entry.paddingSize Entry.BLOCK_SIZE Entry.PATH_OFFSET
  omega

/-- Witness for Claim C8: the record for the entry with path `ab` is
64 bytes long, `64 % 8 = 0`, and `64 = 62 + 2 + (8 - 64 % 8) % 8`. -/
theorem record_length_multiple_of_eight_witness :
    ∃ bs, Entry.writeToIndex entryAB = some bs ∧ bs.length % 8 = 0 ∧
      bs.length = 64 := by
  obtain ⟨bs, hbs⟩ : ∃ bs, Entry.writeToIndex entryAB = some bs := ⟨_, rfl⟩
  have h := record_length_multiple_of_eight entryAB bs (by decide) hbs
  exact ⟨bs, hbs, h.1, by rw [h.2]; rfl⟩

/-! ## Structural lemmas about `splitSlash`, `pathPieces`, `parseComponents` -/

theorem splitSlash_ne_nil (l : List Nat) : splitSlash l ≠ [] := by
  cases l with
  | nil => simp [splitSlash]
  | cons b rest =>
    unfold splitSlash
    by_cases h : b = 47
    · simp [h]
    · simp only [h, if_false]
      cases splitSlash rest <;> simp

theorem splitSlash_append_sep (a b : List Nat) :
    splitSlash (a ++ 47 :: b) = splitSlash a ++ splitSlash b := by
  induction a with
  | nil => simp [splitSlash]
  | cons x xs ih =>
    rw [List.cons_append]
    by_cases h : x = 47
    · simp only [splitSlash, h, if_true, ih]
      rfl
    · simp only [splitSlash, h, if_false, ih]
      rcases hxs : splitSlash xs with _ | ⟨hd, tl⟩
      · exact absurd hxs (splitSlash_ne_nil xs)
      · simp

theorem pathPieces_append_sep (a b : List Nat) :
    pathPieces (a ++ 47 :: b) = pathPieces a ++ pathPieces b := by
  unfold pathPieces
  rw [splitSlash_append_sep, List.filter_append]

theorem splitSlash_eq_single (c : List Nat) (h : 47 ∉ c) : splitSlash c = [c] := by
  induction c with
  | nil => rfl
  | cons x xs ih =>
    have hx : ¬x = 47 := fun hh => h (hh ▸ List.mem_cons_self x xs)
    have hxs : 47 ∉ xs := fun hm => h (List.mem_cons_of_mem _ hm)
    simp only [splitSlash, hx, if_false, ih hxs]

theorem pathPieces_nil : pathPieces [] = [] := rfl

/-- Boolean prefix testing accepts any extension of the same list. -/
theorem isPrefixOf_self_append {α : Type} [BEq α] [LawfulBEq α] (a b : List α) :
    a.isPrefixOf (a ++ b) = true := by
  induction a with
  | nil => simp [List.isPrefixOf]
  | cons x xs ih => simp [List.isPrefixOf, ih]

/-- When the whole-path head byte agrees and the pieces of `bP` extend the
pieces of `aP`, the components of `bP` extend the components of `aP`. -/
theorem parseComponents_extends (aP bP : List Nat) (hhead : bP.head? = aP.head?)
    (hpieces : ∃ r, pathPieces bP = pathPieces aP ++ r) :
    ∃ z, parseComponents bP = parseComponents aP ++ z := by
  obtain ⟨r, hr⟩ := hpieces
  unfold parseComponents
  rw [hhead, hr]
  by_cases habs : aP.head? = some 47
  · simp only [habs, if_true]
    refine ⟨(r.filter (fun x => ¬x = [46])).map classifyPiece, ?_⟩
    rw [List.filter_append, List.map_append]
    simp
  · simp only [habs, if_false]
    rcases hap : pathPieces aP with _ | ⟨first, rest⟩
    · exact ⟨_, rfl⟩
    · simp only [List.cons_append]
      by_cases h46 : first = [46]
      · simp only [h46, if_true]
        exact ⟨(r.filter (fun x => ¬x = [46])).map classifyPiece,
          by rw [List.filter_append, List.map_append]; simp⟩
      · simp only [h46, if_false]
        exact ⟨(r.filter (fun x => ¬x = [46])).map classifyPiece,
          by simp [List.filter_cons, h46, List.filter_append]⟩

/-- Claim C10: for every relative stored path — normalized or not,
including paths with `..` components — `to_absolute` does not reach its
defensive panic and returns the workspace root joined with the stored
path; contrapositively the panic branch is reachable only for an absolute
stored path, so it never detects escape via `..`. -/
theorem to_absolute_relative_no_panic (ws p : List Nat)
    (h : isAbsolutePath p = false) :
    WsPath.toAbsolute ws p = some (joinBytes ws p) := by
  by_cases hws : ws = []
  · subst hws
    unfold WsPath.toAbsolute
    have hparse : parseComponents [] = [] := rfl
    rw [hparse]
    simp [List.isPrefixOf]
  · have hext : ∃ z, parseComponents (joinBytes ws p) = parseComponents ws ++ z := by
      by_cases hlast : ws.getLast? = some 47
      · have h47 : ws.getLast hws = 47 := by
          rw [List.getLast?_eq_getLast_of_ne_nil hws] at hlast
          injection hlast
        have hjoin : joinBytes ws p = ws ++ p := by
          unfold joinBytes
          rw [h, if_neg (by simp), if_neg hws, if_pos hlast]
        have hsplit : ws.dropLast ++ 47 :: p = ws ++ p := by
          conv_rhs => rw [← List.dropLast_append_getLast hws, h47]
          rw [List.append_assoc]
          rfl
        have hwsplit : pathPieces ws = pathPieces ws.dropLast := by
          conv_lhs => rw [← List.dropLast_append_getLast hws, h47]
          rw [show ws.dropLast ++ [47] = ws.dropLast ++ 47 :: [] from rfl,
            pathPieces_append_sep, pathPieces_nil, List.append_nil]
        refine parseComponents_extends ws (joinBytes ws p) ?_ ?_
        · rw [hjoin]
          exact List.head?_append_of_ne_nil ws hws
        · refine ⟨pathPieces p, ?_⟩
          rw [hjoin, ← hsplit, pathPieces_append_sep, hwsplit]
      · have hjoin : joinBytes ws p = ws ++ 47 :: p := by
          unfold joinBytes
          rw [h, if_neg (by simp), if_neg hws, if_neg hlast]
        refine parseComponents_extends ws (joinBytes ws p) ?_ ?_
        · rw [hjoin]
          exact List.head?_append_of_ne_nil ws hws
        · exact ⟨pathPieces p, by rw [hjoin, pathPieces_append_sep]⟩
    obtain ⟨z, hz⟩ := hext
    unfold WsPath.toAbsolute
    simp only [hz]
    rw [isPrefixOf_self_append]
    simp

/-- Witness for Claim C10: with workspace root `/w` and the non-normalized
stored path `../etc`, `to_absolute` does not panic and returns
`/w/../etc`, a path that escapes the workspace. -/
theorem to_absolute_relative_no_panic_witness :
    WsPath.toAbsolute [47, 119] [46, 46, 47, 101, 116, 99] =
      some [47, 119, 47, 46, 46, 47, 101, 116, 99] := by
  exact (to_absolute_relative_no_panic [47, 119] [46, 46, 47, 101, 116, 99]
    (by decide)).trans (by decide)

/-! ## Joined component paths and the `Parents` iterator -/

/-- A normal path component: non-empty, separator-free, and neither `.`
nor `..`. -/
def NormalComp (c : List Nat) : Prop :=
  c ≠ [] ∧ 47 ∉ c ∧ c ≠ [46] ∧ c ≠ [46, 46]

instance (c : List Nat) : Decidable (NormalComp c) := by
  unfold NormalComp
  infer_instance

/-- The byte path `c1/c2/…/cn` formed from a component list. -/
def joinComps : List (List Nat) → List Nat
  | [] => []
  | [c] => c
  | c :: d :: rest => c ++ 47 :: joinComps (d :: rest)

theorem joinComps_ne_nil (cs : List (List Nat)) (h : ∀ c ∈ cs, c ≠ [])
    (hne : cs ≠ []) : joinComps cs ≠ [] := by
  rcases cs with _ | ⟨c, rest⟩
  · exact absurd rfl hne
  · rcases rest with _ | ⟨d, rest2⟩
    · exact h c (by simp)
    · simp [joinComps]

theorem head?_joinComps (c : List Nat) (rest : List (List Nat)) (hc : c ≠ []) :
    (joinComps (c :: rest)).head? = c.head? := by
  rcases rest with _ | ⟨d, rest2⟩
  · rfl
  · exact List.head?_append_of_ne_nil c hc

theorem getLast?_joinComps_ne_47 (cs : List (List Nat))
    (h : ∀ c ∈ cs, c ≠ [] ∧ 47 ∉ c) (hne : cs ≠ []) :
    (joinComps cs).getLast? ≠ some 47 := by
  induction cs with
  | nil => exact absurd rfl hne
  | cons c rest ih =>
    rcases rest with _ | ⟨d, rest2⟩
    · intro hlast
      have hmem : 47 ∈ c := List.mem_of_mem_getLast? (by rw [show joinComps [c] = c from rfl] at hlast; rw [hlast]; rfl)
      exact (h c (by simp)).2 hmem
    · have hjoin : joinComps (c :: d :: rest2) = c ++ 47 :: joinComps (d :: rest2) := rfl
      have hsub : joinComps (d :: rest2) ≠ [] :=
        joinComps_ne_nil (d :: rest2) (fun x hx => (h x (List.mem_cons_of_mem _ hx)).1) (by simp)
      rw [hjoin, List.getLast?_append_of_ne_nil c (by simp),
        show (47 :: joinComps (d :: rest2) : List Nat) = [47] ++ joinComps (d :: rest2) from rfl,
        List.getLast?_append_of_ne_nil [47] hsub]
      exact ih (fun x hx => h x (List.mem_cons_of_mem _ hx)) (by simp)

theorem joinComps_append_single (front : List (List Nat)) (c : List Nat)
    (h : front ≠ []) : joinComps (front ++ [c]) = joinComps front ++ 47 :: c := by
  induction front with
  | nil => exact absurd rfl h
  | cons f front2 ih =>
    rcases front2 with _ | ⟨g, front3⟩
    · rfl
    · have ihh := ih (by simp)
      show joinComps (f :: (g :: front3 ++ [c])) = (f ++ 47 :: joinComps (g :: front3)) ++ 47 :: c
      rcases front3 with _ | ⟨k, front4⟩
      · simp [joinComps]
      · show f ++ 47 :: joinComps ((g :: k :: front4) ++ [c]) = _
        rw [ihh]
        simp

theorem joinBytes_nil_left (p : List Nat) : joinBytes [] p = p := by
  unfold joinBytes
  split
  · rfl
  · simp

/-- Joining one more normal component onto an accumulated joined path is
appending a separator and the component. -/
theorem joinBytes_joinComps (front : List (List Nat)) (c : List Nat)
    (hfront : front ≠ []) (h : ∀ x ∈ front, x ≠ [] ∧ 47 ∉ x)
    (hc : c ≠ []) (hc47 : 47 ∉ c) :
    joinBytes (joinComps front) c = joinComps (front ++ [c]) := by
  have habs : isAbsolutePath c = false := by
    unfold isAbsolutePath
    rcases c with _ | ⟨x, xs⟩
    · simp
    · have hx : ¬x = 47 := fun hh => hc47 (hh ▸ List.mem_cons_self x xs)
      simp [hx]
  have hnn : joinComps front ≠ [] :=
    joinComps_ne_nil front (fun x hx => (h x hx).1) hfront
  have hlast : (joinComps front).getLast? ≠ some 47 :=
    getLast?_joinComps_ne_47 front h hfront
  unfold joinBytes
  rw [if_neg (by simp [habs]), if_neg hnn, if_neg hlast,
    ← joinComps_append_single front c hfront]

/-- The items yielded by repeatedly joining components onto an accumulated
prefix buffer, as the `Parents` iterator does. -/
def cumulativeJoins (pre : List Nat) : List (List Nat) → List (List Nat)
  | [] => []
  | c :: rest => joinBytes pre c :: cumulativeJoins (joinBytes pre c) rest

theorem parents_run_map_normal (cs : List (List Nat)) (pre : List Nat) :
    Parents.run (cs.length + 1) ⟨some (cs.map .normal, pre)⟩ =
      some (cumulativeJoins pre cs, ⟨none⟩) := by
  induction cs generalizing pre with
  | nil => rfl
  | cons c rest ih =>
    have step : Parents.run ((c :: rest).length + 1) ⟨some ((c :: rest).map .normal, pre)⟩ =
        match Parents.run (rest.length + 1) ⟨some (rest.map .normal, joinBytes pre c)⟩ with
        | none => none
        | some (items, sf) => some (joinBytes pre c :: items, sf) := rfl
    rw [step, ih (joinBytes pre c)]
    rfl

theorem cumulativeJoins_spec (rest : List (List Nat)) :
    ∀ front : List (List Nat), front ≠ [] →
      (∀ c ∈ front ++ rest, c ≠ [] ∧ 47 ∉ c) →
      cumulativeJoins (joinComps front) rest =
        (List.range rest.length).map (fun i => joinComps (front ++ rest.take (i + 1))) := by
  induction rest with
  | nil => intro front _ _; rfl
  | cons c rest2 ih =>
    intro front hfront h
    have hc : c ≠ [] ∧ 47 ∉ c := h c (by simp)
    have hjoin : joinBytes (joinComps front) c = joinComps (front ++ [c]) :=
      joinBytes_joinComps front c hfront
        (fun x hx => h x (List.mem_append_left _ hx)) hc.1 hc.2
    rw [show cumulativeJoins (joinComps front) (c :: rest2) =
        joinBytes (joinComps front) c ::
          cumulativeJoins (joinBytes (joinComps front) c) rest2 from rfl]
    rw [hjoin]
    rw [ih (front ++ [c]) (by simp) (by
      intro x hx
      apply h
      simp only [List.append_assoc, List.mem_append, List.mem_cons, List.mem_singleton] at hx ⊢
      tauto)]
    rw [show (c :: rest2).length = rest2.length + 1 from rfl, List.range_succ_eq_map]
    rw [List.map_cons, List.map_map]
    congr 1 <;> simp

theorem pathPieces_joinComps (cs : List (List Nat))
    (h : ∀ c ∈ cs, c ≠ [] ∧ 47 ∉ c) : pathPieces (joinComps cs) = cs := by
  induction cs with
  | nil => rfl
  | cons c rest ih =>
    obtain ⟨hne, hns⟩ := h c (by simp)
    rcases rest with _ | ⟨d, rest2⟩
    · show pathPieces c = [c]
      unfold pathPieces
      rw [splitSlash_eq_single c hns]
      simp [hne]
    · show pathPieces (c ++ 47 :: joinComps (d :: rest2)) = c :: d :: rest2
      rw [pathPieces_append_sep, ih (fun x hx => h x (List.mem_cons_of_mem _ hx))]
      unfold pathPieces
      rw [splitSlash_eq_single c hns]
      simp [hne]

theorem parseComponents_joinComps (cs : List (List Nat))
    (h : ∀ c ∈ cs, NormalComp c) :
    parseComponents (joinComps cs) = cs.map Component.normal := by
  rcases cs with _ | ⟨c, rest⟩
  · rfl
  · obtain ⟨hne, hns, h46, h4646⟩ := h c (by simp)
    have hpieces : pathPieces (joinComps (c :: rest)) = c :: rest :=
      pathPieces_joinComps _ (fun x hx => ⟨(h x hx).1, (h x hx).2.1⟩)
    have hhead : ¬((joinComps (c :: rest)).head? = some 47) := by
      rw [head?_joinComps c rest hne]
      rcases c with _ | ⟨x, xs⟩
      · exact absurd rfl hne
      · intro hh
        simp only [List.head?] at hh
        injection hh with hh
        subst hh
        exact hns (List.mem_cons_self _ _)
    unfold parseComponents
    rw [if_neg hhead, hpieces]
    show (if c = [46] then
        Component.curDir :: (rest.filter (fun x => ¬x = [46])).map classifyPiece
      else ((c :: rest).filter (fun x => ¬x = [46])).map classifyPiece) =
      (c :: rest).map Component.normal
    rw [if_neg h46]
    have hfilter : (c :: rest).filter (fun x => ¬x = [46]) = c :: rest :=
      List.filter_eq_self.mpr (fun x hx => by simp [(h x hx).2.2.1])
    rw [hfilter]
    refine List.map_congr_left ?_
    intro x hx
    unfold classifyPiece
    rw [if_neg (h x hx).2.2.1, if_neg (h x hx).2.2.2]

/-- Claim C9: for a `WsPath` of `n ≥ 1` normal components `c1/…/cn`, the
`Parents` iterator yields exactly `n - 1` items, the `i`-th being the
cumulative relative path `c1/…/c(i+1)` from shallowest to deepest, without
panicking; it then is exhausted (inner state `none`) and every further
call yields nothing from the exhausted state. -/
theorem iter_parents_cumulative_ancestors (cs : List (List Nat))
    (hcs : ∀ c ∈ cs, NormalComp c) (hne : cs ≠ []) :
    Parents.run cs.length (Parents.new (joinComps cs)) =
      some ((List.range (cs.length - 1)).map (fun i => joinComps (cs.take (i + 1))),
        ⟨none⟩) ∧
    (∀ fuel, Parents.run fuel (⟨none⟩ : ParentsState) = some ([], ⟨none⟩)) := by
  constructor
  · have hnew : Parents.new (joinComps cs) = ⟨some (cs.dropLast.map .normal, [])⟩ := by
      unfold Parents.new pathParent
      rw [parseComponents_joinComps cs hcs]
      rcases cs with _ | ⟨c, rest⟩
      · exact absurd rfl hne
      · show ParentsState.mk (some (((c :: rest).map Component.normal).dropLast, [])) = _
        rw [List.map_dropLast]
    rw [hnew]
    rcases hsplit : cs.dropLast with _ | ⟨c, rest⟩
    · have hlen : cs.length = 1 := by
        have h1 : cs.dropLast.length = 0 := by rw [hsplit]; rfl
        rw [List.length_dropLast] at h1
        have h2 : cs.length ≠ 0 := fun hh => hne (List.length_eq_zero.mp hh)
        omega
      rw [hlen]
      rfl
    · have hlen : cs.length = rest.length + 2 := by
        have h1 : cs.dropLast.length = rest.length + 1 := by rw [hsplit]; rfl
        rw [List.length_dropLast] at h1
        have h2 : cs.length ≠ 0 := fun hh => hne (List.length_eq_zero.mp hh)
        omega
      rw [hlen]
      have hrun := parents_run_map_normal (c :: rest) []
      rw [show (rest.length + 2) = (c :: rest).length + 1 from rfl, hrun]
      refine congrArg (fun l => some (l, (⟨none⟩ : ParentsState))) ?_
      have hcsmem : ∀ x ∈ [c] ++ rest, x ≠ [] ∧ 47 ∉ x := by
        intro x hx
        have hxds : x ∈ cs.dropLast := by rw [hsplit]; simpa using hx
        have hxcs : x ∈ cs := List.mem_of_mem_dropLast hxds
        exact ⟨(hcs x hxcs).1, (hcs x hxcs).2.1⟩
      have hspec := cumulativeJoins_spec rest [c] (by simp) hcsmem
      have htake : ∀ k, k ≤ rest.length + 1 → cs.take k = (c :: rest).take k := by
        intro k hk
        rw [← hsplit, List.dropLast_eq_take, List.take_take]
        congr 1
        omega
      rw [show cumulativeJoins [] (c :: rest) =
        joinBytes [] c :: cumulativeJoins (joinBytes [] c) rest from rfl]
      rw [joinBytes_nil_left]
      rw [show cumulativeJoins c rest = cumulativeJoins (joinComps [c]) rest from rfl]
      rw [hspec]
      rw [show (c :: rest).length + 1 - 1 = rest.length + 1 from rfl]
      rw [List.range_succ_eq_map, List.map_cons, List.map_map]
      congr 1
      · show c = joinComps (cs.take (0 + 1))
        rw [htake 1 (by omega)]
        rfl
      · refine List.map_congr_left ?_
        intro i hi
        have hi2 : i < rest.length := List.mem_range.mp hi
        show joinComps ([c] ++ rest.take (i + 1)) = joinComps (cs.take (Nat.succ i + 1))
        rw [htake (Nat.succ i + 1) (by omega)]
        rfl
  · intro fuel
    cases fuel with
    | zero => rfl
    | succ f => rfl

/-- The components of `foo/bar/baz/buz.txt`. -/
def parentsExample : List (List Nat) :=
  [[102, 111, 111], [98, 97, 114], [98, 97, 122], [98, 117, 122, 46, 116, 120, 116]]

/-- Witness for Claim C9: on `foo/bar/baz/buz.txt` the iterator yields
exactly `foo`, `foo/bar`, `foo/bar/baz` and is then exhausted. -/
theorem iter_parents_cumulative_ancestors_witness :
    Parents.run 4 (Parents.new
        [102, 111, 111, 47, 98, 97, 114, 47, 98, 97, 122, 47,
          98, 117, 122, 46, 116, 120, 116]) =
      some ([[102, 111, 111], [102, 111, 111, 47, 98, 97, 114],
        [102, 111, 111, 47, 98, 97, 114, 47, 98, 97, 122]], ⟨none⟩) := by
  have h := (iter_parents_cumulative_ancestors parentsExample (by decide) (by decide)).1
  exact h.trans (by decide)

/-! ## Agreement of the component order with byte order -/

theorem bytesCmp_eq_iff (a : List Nat) : ∀ b, bytesCmp a b = .eq ↔ a = b := by
  induction a with
  | nil => intro b; cases b <;> simp [bytesCmp]
  | cons x xs ih =>
    intro b
    cases b with
    | nil => simp [bytesCmp]
    | cons y ys =>
      by_cases h1 : x < y
      · simp only [bytesCmp, h1, if_true]
        constructor
        · intro hh; exact absurd hh (by simp)
        · rintro ⟨rfl, _⟩ <;> omega
          
      · by_cases h2 : y < x
        · simp only [bytesCmp, h1, if_false, h2, if_true]
          constructor
          · intro hh; exact absurd hh (by simp)
          · rintro ⟨rfl, _⟩ <;> omega
        · have hxy : x = y := by omega
          subst hxy
          simp [bytesCmp, ih ys]

theorem bytesCmp_append_sep (c : List Nat) :
    ∀ d t1 t2 : List Nat, (∀ x ∈ c, 47 < x) → (∀ x ∈ d, 47 < x) →
      (t1 = [] ∨ t1.head? = some 47) → (t2 = [] ∨ t2.head? = some 47) →
      bytesCmp (c ++ t1) (d ++ t2) =
        (match bytesCmp c d with
         | .eq => bytesCmp t1 t2
         | o => o) := by
  induction c with
  | nil =>
    intro d t1 t2 _ hd ht1 ht2
    cases d with
    | nil => rfl
    | cons y ys =>
      rcases ht1 with h | h
      · subst h; rfl
      · rcases t1 with _ | ⟨a, t1x⟩
        · rfl
        · have ha : a = 47 := by simpa using h
          subst ha
          have hy : 47 < y := hd y (by simp)
          show bytesCmp (47 :: t1x) (y :: (ys ++ t2)) = _
          simp [bytesCmp, hy]
  | cons x xs ih =>
    intro d t1 t2 hc hd ht1 ht2
    cases d with
    | nil =>
      rcases ht2 with h | h
      · subst h; rfl
      · rcases t2 with _ | ⟨a, t2x⟩
        · rfl
        · have ha : a = 47 := by simpa using h
          subst ha
          have hx : 47 < x := hc x (by simp)
          show bytesCmp (x :: (xs ++ t1)) (47 :: t2x) = _
          have h1 : ¬x < 47 := by omega
          simp [bytesCmp, h1, hx]
    | cons y ys =>
      by_cases h1 : x < y
      · show bytesCmp (x :: (xs ++ t1)) (y :: (ys ++ t2)) = _
        simp [bytesCmp, h1]
      · by_cases h2 : y < x
        · show bytesCmp (x :: (xs ++ t1)) (y :: (ys ++ t2)) = _
          simp [bytesCmp, h1, h2]
        · have hxy : x = y := by omega
          subst hxy
          show bytesCmp (x :: (xs ++ t1)) (x :: (ys ++ t2)) = _
          simp only [bytesCmp, lt_irrefl, if_false]
          exact ih ys t1 t2 (fun z hz => hc z (List.mem_cons_of_mem _ hz))
            (fun z hz => hd z (List.mem_cons_of_mem _ hz)) ht1 ht2

theorem listCmp_normal_eq_bytesCmp_join (cs : List (List Nat)) :
    ∀ ds : List (List Nat),
      (∀ c ∈ cs, c ≠ [] ∧ ∀ x ∈ c, 47 < x) →
      (∀ c ∈ ds, c ≠ [] ∧ ∀ x ∈ c, 47 < x) →
      listCmp Component.cmp (cs.map .normal) (ds.map .normal) =
        bytesCmp (joinComps cs) (joinComps ds) := by
  induction cs with
  | nil =>
    intro ds _ hds
    cases ds with
    | nil => rfl
    | cons d ds2 =>
      have hne : joinComps (d :: ds2) ≠ [] :=
        joinComps_ne_nil _ (fun x hx => (hds x hx).1) (by simp)
      rcases hj : joinComps (d :: ds2) with _ | ⟨b, bs⟩
      · exact absurd hj hne
      · simp [listCmp, bytesCmp]
  | cons c cs2 ih =>
    intro ds hcs hds
    cases ds with
    | nil =>
      have hne : joinComps (c :: cs2) ≠ [] :=
        joinComps_ne_nil _ (fun x hx => (hcs x hx).1) (by simp)
      rcases hj : joinComps (c :: cs2) with _ | ⟨b, bs⟩
      · exact absurd hj hne
      · simp [listCmp, bytesCmp]
    | cons d ds2 =>
      obtain ⟨t1, hjc, hdesc1⟩ : ∃ t1, joinComps (c :: cs2) = c ++ t1 ∧
          ((cs2 = [] ∧ t1 = []) ∨ (cs2 ≠ [] ∧ t1 = 47 :: joinComps cs2)) := by
        cases cs2 with
        | nil => exact ⟨[], by simp [joinComps], Or.inl ⟨rfl, rfl⟩⟩
        | cons e es => exact ⟨47 :: joinComps (e :: es), rfl, Or.inr ⟨by simp, rfl⟩⟩
      obtain ⟨t2, hjd, hdesc2⟩ : ∃ t2, joinComps (d :: ds2) = d ++ t2 ∧
          ((ds2 = [] ∧ t2 = []) ∨ (ds2 ≠ [] ∧ t2 = 47 :: joinComps ds2)) := by
        cases ds2 with
        | nil => exact ⟨[], by simp [joinComps], Or.inl ⟨rfl, rfl⟩⟩
        | cons e es => exact ⟨47 :: joinComps (e :: es), rfl, Or.inr ⟨by simp, rfl⟩⟩
      have ht1 : t1 = [] ∨ t1.head? = some 47 := by
        rcases hdesc1 with ⟨_, hh⟩ | ⟨_, hh⟩
        · exact Or.inl hh
        · exact Or.inr (by rw [hh]; rfl)
      have ht2 : t2 = [] ∨ t2.head? = some 47 := by
        rcases hdesc2 with ⟨_, hh⟩ | ⟨_, hh⟩
        · exact Or.inl hh
        · exact Or.inr (by rw [hh]; rfl)
      rw [hjc, hjd, bytesCmp_append_sep c d t1 t2 (hcs c (by simp)).2
        (hds d (by simp)).2 ht1 ht2]
      show (match Component.cmp (.normal c) (.normal d) with
        | .eq => listCmp Component.cmp (cs2.map .normal) (ds2.map .normal)
        | o => o) = _
      rw [show Component.cmp (.normal c) (.normal d) = bytesCmp c d from rfl]
      rcases hbc : bytesCmp c d with _ | _ | _
      · rfl
      · rw [ih ds2 (fun x hx => hcs x (by simp [hx]))
          (fun x hx => hds x (by simp [hx]))]
        rcases hdesc1 with ⟨hcs2nil, ht1nil⟩ | ⟨hcs2ne, ht1cons⟩
        · subst hcs2nil
          subst ht1nil
          rcases hdesc2 with ⟨hds2nil, ht2nil⟩ | ⟨hds2ne, ht2cons⟩
          · subst hds2nil; subst ht2nil; rfl
          · subst ht2cons
            have hne : joinComps ds2 ≠ [] :=
              joinComps_ne_nil _ (fun x hx => (hds x (by simp [hx])).1) hds2ne
            rcases hj : joinComps ds2 with _ | ⟨b, bs⟩
            · exact absurd hj hne
            · simp [bytesCmp]
        · subst ht1cons
          rcases hdesc2 with ⟨hds2nil, ht2nil⟩ | ⟨hds2ne, ht2cons⟩
          · subst hds2nil; subst ht2nil
            have hne : joinComps cs2 ≠ [] :=
              joinComps_ne_nil _ (fun x hx => (hcs x (by simp [hx])).1) hcs2ne
            rcases hj : joinComps cs2 with _ | ⟨b, bs⟩
            · exact absurd hj hne
            · simp [bytesCmp]
          · subst ht2cons
            simp [bytesCmp]
      · rfl

/-- Claim C5 (amended): the `WsPath` order is the component-wise `Path`
order, not raw byte-lexicographic order in general; restricted to
canonical relative paths (non-empty separator-free components joined by
single `/`) whose component bytes all exceed `0x2F`, the component-wise
comparison produces exactly the raw byte-lexicographic comparison of the
underlying byte sequences, so there `p < q` iff the bytes of `p` are
lexicographically less.  (Bytes below `0x2F` inside a name — such as `-`,
`0x2D` — break the agreement, as the counterexample `a-b` vs `a/c`
shows.) -/
theorem wspath_order_bytewise_amended (cs ds : List (List Nat))
    (hcs : ∀ c ∈ cs, c ≠ [] ∧ ∀ x ∈ c, 47 < x)
    (hds : ∀ c ∈ ds, c ≠ [] ∧ ∀ x ∈ c, 47 < x) :
    wsPathCmp (joinComps cs) (joinComps ds) =
      bytesCmp (joinComps cs) (joinComps ds) := by
  have norm : ∀ (l : List (List Nat)),
      (∀ c ∈ l, c ≠ [] ∧ ∀ x ∈ c, 47 < x) → ∀ c ∈ l, NormalComp c := by
    intro l hl c hc
    obtain ⟨h1, h2⟩ := hl c hc
    refine ⟨h1, ?_, ?_, ?_⟩
    · intro hmem; exact absurd (h2 47 hmem) (lt_irrefl 47)
    · intro hh; subst hh; have := h2 46 (by simp); omega
    · intro hh; subst hh; have := h2 46 (by simp); omega
  unfold wsPathCmp
  rw [parseComponents_joinComps cs (norm cs hcs),
    parseComponents_joinComps ds (norm ds hds)]
  exact listCmp_normal_eq_bytesCmp_join cs ds hcs hds

/-- Witness for the amended Claim C5: on `a/b` versus `ab` the `WsPath`
order agrees with raw byte comparison, and both say `a/b < ab`. -/
theorem wspath_order_bytewise_amended_witness :
    wsPathCmp [97, 47, 98] [97, 98] = bytesCmp [97, 47, 98] [97, 98] ∧
      bytesCmp [97, 47, 98] [97, 98] = .lt :=
  ⟨wspath_order_bytewise_amended [[97], [98]] [[97, 98]] (by decide) (by decide),
    by decide⟩

end Writ
